import Mathlib

/-!
Verification development for the per-disk file-tracking index
(objectserver/internal/filetracker.go and its second copy in the
repository).  The Go code is shallowly embedded: the sqlite table of one
partition becomes a list of rows, the set of partition databases becomes a
list of tables, the on-disk blob files become a list of path strings, and
every fallible external call (the kvt metadata codec, directory creation,
database open and schema init) is an explicit function parameter.  Strings
are modelled character-wise; the hashes handled by the tracker are ASCII,
where Go's byte-wise operations and the character-wise model agree.
-/

/-- Bytes of a Go byte slice, modelled as a list of naturals < 256. -/
abbrev Bytes := List Nat

/-- Value of one hex digit, as accepted by Go's hex.DecodeString
(digits, lowercase and uppercase letters). -/
def hexVal (c : Char) : Option Nat :=
  if 48 ≤ c.toNat ∧ c.toNat ≤ 57 then some (c.toNat - 48)
  else if 97 ≤ c.toNat ∧ c.toNat ≤ 102 then some (c.toNat - 87)
  else if 65 ≤ c.toNat ∧ c.toNat ≤ 70 then some (c.toNat - 55)
  else none

/-- Model of Go's hex.DecodeString over characters: pairs of hex digits
become bytes; an odd length or a non-hex character fails. -/
def decodeHexBytes : List Char → Option Bytes
  | [] => some []
  | [_] => none
  | c1 :: c2 :: rest =>
    match hexVal c1, hexVal c2, decodeHexBytes rest with
    | some h, some l, some bs => some ((16 * h + l) :: bs)
    | _, _, _ => none

/-- Model of Go's strings.ToLower, character by character (exact for the
ASCII strings the tracker handles). -/
def goToLower (s : String) : String := String.mk (s.data.map Char.toLower)

/-- Embedding of FileTracker.validateHash: lowercase the hash, require
exactly 32 characters, hex-decode it, and take the top diskPartPower bits
of the first byte as the partition index.  Go shifts the first byte right
by (8 - diskPartPower) in uint arithmetic; for powers above 8 the shift
count wraps to a huge value and the result is 0. -/
def validateHash (diskPartPower : Nat) (hsh : String) : Except String (String × Nat) :=
  let h := goToLower hsh
  if h.length ≠ 32 then
    .error ("invalid hash " ++ h ++ "; length was not 32")
  else
    match decodeHexBytes h.data with
    | none => .error ("invalid hash " ++ h ++ "; decoding error")
    | some bytes =>
      .ok (h, if diskPartPower ≤ 8 then (bytes.headD 0).shiftRight (8 - diskPartPower) else 0)

/-- True exactly when validateHash succeeds on the string. -/
def wellFormedHash (s : String) : Bool :=
  (goToLower s).length == 32 && (decodeHexBytes (goToLower s).data).isSome

/-- Lowercase digit character for a value below 16, as produced by Go's
%x and %d verbs. -/
def digitChar (n : Nat) : Char :=
  if n < 10 then Char.ofNat (48 + n) else Char.ofNat (87 + n)

/-- Digits of n in the given base, most significant first, empty for 0.
Fuel-based so the kernel can evaluate it; fuel n suffices because the
argument strictly decreases under division by a base at least 2. -/
def msbDigitsAux (base : Nat) : Nat → Nat → List Char
  | 0, _ => []
  | fuel + 1, n => if n = 0 then [] else msbDigitsAux base fuel (n / base) ++ [digitChar (n % base)]

/-- Digits of n in the given base, most significant first, with 0
rendered as a single zero digit. -/
def msbDigits (base n : Nat) : List Char :=
  if n = 0 then [digitChar 0] else msbDigitsAux base n n

/-- Zero padding on the left to a minimum width, as done by Go's 0 flag. -/
def padZero (w : Nat) (cs : List Char) : List Char :=
  List.replicate (w - cs.length) (digitChar 0) ++ cs

/-- Model of Go's fmt verb %0wb for a natural number in the given base
(%02x, %019d and the like). -/
def goPadNat (base w n : Nat) : String := String.mk (padZero w (msbDigits base n))

/-- Model of the same verb for a Go signed integer: the sign is emitted
first and the zero padding counts toward the total width. -/
def goPadInt (base w : Nat) (i : Int) : String :=
  if i < 0 then "-" ++ goPadNat base (w - 1) (-i).toNat else goPadNat base w i.toNat

/-- Model of Go's %0wx applied to a string operand: fmt hex-encodes the
bytes of the string, two lowercase hex digits per byte, zero padded to
the minimum width. -/
def hexOfString (w : Nat) (s : String) : String :=
  String.mk (padZero w (s.data.flatMap (fun c => [digitChar (c.toNat / 16), digitChar (c.toNat % 16)])))

/-- Model of Go's path.Join for the two-argument, already-clean paths the
tracker builds. -/
def pathJoin (a b : String) : String :=
  if a = "" then b else if b = "" then a else a ++ "/" ++ b

/-- Static configuration of one tracker: its root path and its disk
partition power. -/
structure FTCfg where
  root : String
  diskPartPower : Nat
deriving DecidableEq

/-- Path of the blob file as Commit and Lookup build it, for a hash that
already passed validation and mapped to partition dp: the source formats
it with Sprintf("%02x/%032x.%02x.%019d", diskPart, hsh, shard, timestamp),
hex-encoding the BYTES of the hash string (64 characters). -/
def blobPath (cfg : FTCfg) (dp : Nat) (hsh : String) (shard : Int) (timestamp : Int) : String :=
  pathJoin cfg.root
    (goPadNat 16 2 dp ++ "/" ++ hexOfString 32 hsh ++ "." ++ goPadInt 16 2 shard ++ "." ++ goPadInt 10 19 timestamp)

/-- Embedding of FileTracker.wholeFilePath. -/
def wholeFilePath (cfg : FTCfg) (hsh : String) (shard : Int) (timestamp : Int) : Except String String :=
  match validateHash cfg.diskPartPower hsh with
  | .error e => .error e
  | .ok (h, dp) => .ok (blobPath cfg dp h shard timestamp)

/-- Embedding of FileTracker.wholeFileDir. -/
def wholeFileDir (cfg : FTCfg) (hsh : String) : Except String String :=
  match validateHash cfg.diskPartPower hsh with
  | .error e => .error e
  | .ok (_, dp) => .ok (pathJoin cfg.root (goPadNat 16 2 dp))

/-- Path of one partition's sqlite index file, from NewFileTracker: it is
joined onto the ROOT path, not the partition directory. -/
def dbFilePath (cfg : FTCfg) (i : Nat) : String :=
  pathJoin cfg.root ("filetracker_" ++ goPadNat 16 2 i ++ ".sqlite3")

/-- Embedding of FileTracker.TempFile: the handle's destination directory
is computed (validating the hash); the temp file creation itself is
modelled as succeeding. -/
def tempFile (cfg : FTCfg) (hsh : String) : Except String String :=
  match wholeFileDir cfg hsh with
  | .error e => .error e
  | .ok dir => .ok dir

/-- One row of a partition's files table. -/
structure Row where
  hash : String
  shard : Int
  timestamp : Int
  metahash : String
  metadata : Bytes
deriving DecidableEq

/-- State of one tracker: the tables of all partition databases, and the
set of blob files on disk (as a list of paths). -/
structure FTState where
  dbs : List (List Row)
  disk : List String
deriving DecidableEq

/-- State of a freshly constructed tracker: 2^diskPartPower empty tables
and no blob files. -/
def FTState.init (diskPartPower : Nat) : FTState :=
  ⟨List.replicate (2 ^ diskPartPower) [], []⟩

/-- The row Commit's opening query returns: rows matching (hash, shard),
ordered by timestamp descending, first row taken.  Ties keep the earlier
row, and the primary key means at most one row matches in any reachable
state. -/
def queryCurrent (tbl : List Row) (hsh : String) (shard : Int) : Option Row :=
  (tbl.filter (fun r => r.hash == hsh && r.shard == shard)).foldl
    (fun acc r =>
      match acc with
      | none => some r
      | some b => if b.timestamp < r.timestamp then some r else some b)
    none

/-- Effect of the INSERT INTO files statement. -/
def tblInsert (tbl : List Row) (r : Row) : List Row := tbl ++ [r]

/-- Effect of the UPDATE files SET ... WHERE hash = ? AND shard = ?
statement. -/
def tblUpdate (tbl : List Row) (hsh : String) (shard : Int) (ts : Int) (mh : String) (md : Bytes) :
    List Row :=
  tbl.map (fun r =>
    if r.hash == hsh && r.shard == shard then
      { r with timestamp := ts, metahash := mh, metadata := md }
    else r)

/-- What happened to the temp file handle by the time Commit returned:
saved into place, abandoned by the deferred teardown, or never touched
(the validateHash early return fires before the defer is installed). -/
inductive HandleFate
  | saved
  | abandoned
  | untouched
deriving DecidableEq

/-- Capability interface of the kvt metadata store as Commit uses it:
json.Unmarshal, json.Marshal, Store.Absorb and Store.Hash, with the two
codec directions fallible. -/
structure KvtCodec (σ : Type) where
  unmarshal : Bytes → Except String σ
  marshal : σ → Except String Bytes
  absorb : σ → σ → σ
  storeHash : σ → String

/-- Embedding of FileTracker.Commit.  The sql transaction, f.Save and
os.Remove are modelled as succeeding; every branch of the source is kept:
the stale-timestamp discard, the metadata reconciliation with its four
codec-failure branches, the insert-or-update choice, and the post-commit
removal of the superseded blob. -/
def commit {σ : Type} (cfg : FTCfg) (codec : KvtCodec σ) (st : FTState) (hsh : String)
    (shard : Int) (timestamp : Int) (metahash : String) (metadata : Bytes) :
    FTState × HandleFate × Except String Unit :=
  match validateHash cfg.diskPartPower hsh with
  | .error e => (st, .untouched, .error e)
  | .ok (h, dp) =>
    let tbl := st.dbs.getD dp []
    match queryCurrent tbl h shard with
    | none =>
      -- No current row: removeOlder stays empty; insert after saving.
      let pth := blobPath cfg dp h shard timestamp
      (⟨st.dbs.set dp (tblInsert tbl ⟨h, shard, timestamp, metahash, metadata⟩), pth :: st.disk⟩,
       .saved, .ok ())
    | some row =>
      if timestamp ≤ row.timestamp then (st, .abandoned, .ok ())
      else
        let removeOlder := blobPath cfg dp h shard row.timestamp
        let step : Except String (String × Bytes) :=
          if metahash = row.metahash then .ok (metahash, metadata)
          else
            match codec.unmarshal metadata with
            | .error e => .error e
            | .ok metastore =>
              match codec.unmarshal row.metadata with
              | .error _ => .ok (metahash, metadata)
              | .ok dbMetastore =>
                let merged := codec.absorb metastore dbMetastore
                match codec.marshal merged with
                | .ok newMetadata => .ok (codec.storeHash merged, newMetadata)
                | .error e =>
                  match codec.marshal dbMetastore with
                  | .error _ => .ok (metahash, metadata)
                  | .ok _ => .error e
        match step with
        | .error e => (st, .abandoned, .error e)
        | .ok (mh, md) =>
          let pth := blobPath cfg dp h shard timestamp
          (⟨st.dbs.set dp (tblUpdate tbl h shard timestamp mh md),
            (pth :: st.disk).erase removeOlder⟩,
           .saved, .ok ())

/-- Outcome of a Go function that can panic. -/
inductive GoResult (α : Type)
  | ret (a : α)
  | panic (msg : String)
deriving DecidableEq

/-- Embedding of FileTracker.Lookup (the filetracker.go copy, including
its two debug assertions): the named return value metadata starts as nil,
is length-checked (GLH0), filled by rows.Scan, and length-checked again
(GLH1); a missing row returns the zero values with a nil error. -/
def lookupGo (cfg : FTCfg) (st : FTState) (hsh : String) (shard : Int) :
    GoResult ((Int × String × Bytes × String) × Option String) :=
  match validateHash cfg.diskPartPower hsh with
  | .error e => .ret ((0, "", [], ""), some e)
  | .ok (h, dp) =>
    match queryCurrent (st.dbs.getD dp []) h shard with
    | none => .ret ((0, "", [], ""), none)
    | some row =>
      let metadata0 : Bytes := []
      if metadata0.length ≠ 0 then .panic "GLH0"
      else if row.metadata.length ≠ 0 then .panic "GLH1"
      else
        match wholeFilePath cfg h shard row.timestamp with
        | .ok pth => .ret ((row.timestamp, row.metahash, row.metadata, pth), none)
        | .error e => .ret ((row.timestamp, row.metahash, row.metadata, ""), some e)

/-- One item of a List result. -/
structure FileTrackerItem where
  hash : String
  shard : Int
  timestamp : Int
  metahash : String
deriving DecidableEq

/-- Ordering used by sqlite's BETWEEN on the hash column: byte-wise
comparison, modelled on the characters of the ASCII hashes. -/
def charListLe : List Char → List Char → Bool
  | [], _ => true
  | _ :: _, [] => false
  | a :: as, b :: bs =>
    if a.toNat < b.toNat then true
    else if b.toNat < a.toNat then false
    else charListLe as bs

/-- String comparison for the BETWEEN range check. -/
def strLe (a b : String) : Bool := charListLe a.data b.data

/-- Embedding of FileTracker.List: validate both bounds, reject a start
partition beyond the stop partition, then scan each partition in range
and keep the rows whose hash lies between the bounds. -/
def list (cfg : FTCfg) (st : FTState) (startHash stopHash : String) :
    Except String (List FileTrackerItem) :=
  match validateHash cfg.diskPartPower startHash with
  | .error e => .error e
  | .ok (startH, startDP) =>
    match validateHash cfg.diskPartPower stopHash with
    | .error e => .error e
    | .ok (stopH, stopDP) =>
      if stopDP < startDP then .error "startHash greater than stopHash"
      else
        .ok (((List.range (stopDP + 1 - startDP)).map (fun k => startDP + k)).flatMap
          (fun i =>
            ((st.dbs.getD i []).filter
              (fun r => strLe startH r.hash && strLe r.hash stopH)).map
              (fun r => ⟨r.hash, r.shard, r.timestamp, r.metahash⟩)))

/-- Loop body of NewFileTracker, with the outcome of each partition's
MkdirAll, sql.Open and schema init given by boolean failure oracles.
Tracked are the database handles currently open (by partition index) and
whether construction has succeeded so far.  The source's teardown on an
open or init failure at partition i closes exactly the handles of
partitions j < i; the mkdir failure path returns without any teardown. -/
def nftGo (mkdirFails openFails initFails : Nat → Bool) :
    Nat → Nat → List Nat → List Nat × Bool
  | 0, _, opened => (opened, true)
  | fuel + 1, i, opened =>
    if mkdirFails i then (opened, false)
    else if openFails i then (opened.filter (fun j => decide (i ≤ j)), false)
    else if initFails i then ((opened ++ [i]).filter (fun j => decide (i ≤ j)), false)
    else nftGo mkdirFails openFails initFails fuel (i + 1) (opened ++ [i])

/-- Embedding of NewFileTracker's resource behaviour: returns the list of
database handles left open when the constructor returns, and whether it
succeeded.  A failure creating the temp directory happens before any
handle is opened. -/
def newFileTracker (diskPartPower : Nat) (tempFails : Bool)
    (mkdirFails openFails initFails : Nat → Bool) : List Nat × Bool :=
  if tempFails then ([], false)
  else nftGo mkdirFails openFails initFails (2 ^ diskPartPower) 0 []

/-- One Commit request for a fixed (hash, shard) key. -/
structure Req where
  timestamp : Int
  metahash : String
  metadata : Bytes
deriving DecidableEq

/-- Runs a sequence of Commit calls for one key, threading the state and
recording whether every call returned without error. -/
def runCommits {σ : Type} (cfg : FTCfg) (codec : KvtCodec σ) (hsh : String) (shard : Int) :
    FTState → List Req → FTState × Bool
  | st, [] => (st, true)
  | st, r :: rs =>
    match commit cfg codec st hsh shard r.timestamp r.metahash r.metadata with
    | (st1, _, res) =>
      match runCommits cfg codec hsh shard st1 rs with
      | (st2, ok) => (st2, ok && (match res with | .ok _ => true | .error _ => false))

/-- Fold computing the highest timestamp of a request list, seeded with
the first commit's timestamp. -/
def foldMaxTs (t0 : Int) (rs : List Req) : Int := rs.foldl (fun a r => max a r.timestamp) t0

/-- Embedding of fileTracker.validateHash from the second copy of the
tracker (src/unnamed/part_000); its body is character-for-character the
body of FileTracker.validateHash. -/
def validateHashP0 (diskPartPower : Nat) (hsh : String) : Except String (String × Nat) :=
  let h := goToLower hsh
  if h.length ≠ 32 then
    .error ("invalid hash " ++ h ++ "; length was not 32")
  else
    match decodeHexBytes h.data with
    | none => .error ("invalid hash " ++ h ++ "; decoding error")
    | some bytes =>
      .ok (h, if diskPartPower ≤ 8 then (bytes.headD 0).shiftRight (8 - diskPartPower) else 0)

/-- Embedding of fileTracker.wholeFilePath from part_000. -/
def wholeFilePathP0 (cfg : FTCfg) (hsh : String) (shard : Int) (timestamp : Int) :
    Except String String :=
  match validateHashP0 cfg.diskPartPower hsh with
  | .error e => .error e
  | .ok (h, dp) =>
    .ok (pathJoin cfg.root
      (goPadNat 16 2 dp ++ "/" ++ hexOfString 32 h ++ "." ++ goPadInt 16 2 shard ++ "." ++
        goPadInt 10 19 timestamp))

/-- Embedding of fileTracker.commit from part_000, translated from its
own text (which coincides with FileTracker.Commit's). -/
def commitP0 {σ : Type} (cfg : FTCfg) (codec : KvtCodec σ) (st : FTState) (hsh : String)
    (shard : Int) (timestamp : Int) (metahash : String) (metadata : Bytes) :
    FTState × HandleFate × Except String Unit :=
  match validateHashP0 cfg.diskPartPower hsh with
  | .error e => (st, .untouched, .error e)
  | .ok (h, dp) =>
    let tbl := st.dbs.getD dp []
    match queryCurrent tbl h shard with
    | none =>
      let pth := blobPath cfg dp h shard timestamp
      (⟨st.dbs.set dp (tblInsert tbl ⟨h, shard, timestamp, metahash, metadata⟩), pth :: st.disk⟩,
       .saved, .ok ())
    | some row =>
      if timestamp ≤ row.timestamp then (st, .abandoned, .ok ())
      else
        let removeOlder := blobPath cfg dp h shard row.timestamp
        let step : Except String (String × Bytes) :=
          if metahash = row.metahash then .ok (metahash, metadata)
          else
            match codec.unmarshal metadata with
            | .error e => .error e
            | .ok metastore =>
              match codec.unmarshal row.metadata with
              | .error _ => .ok (metahash, metadata)
              | .ok dbMetastore =>
                let merged := codec.absorb metastore dbMetastore
                match codec.marshal merged with
                | .ok newMetadata => .ok (codec.storeHash merged, newMetadata)
                | .error e =>
                  match codec.marshal dbMetastore with
                  | .error _ => .ok (metahash, metadata)
                  | .ok _ => .error e
        match step with
        | .error e => (st, .abandoned, .error e)
        | .ok (mh, md) =>
          let pth := blobPath cfg dp h shard timestamp
          (⟨st.dbs.set dp (tblUpdate tbl h shard timestamp mh md),
            (pth :: st.disk).erase removeOlder⟩,
           .saved, .ok ())

/-- Embedding of fileTracker.list from part_000. -/
def listP0 (cfg : FTCfg) (st : FTState) (startHash stopHash : String) :
    Except String (List FileTrackerItem) :=
  match validateHashP0 cfg.diskPartPower startHash with
  | .error e => .error e
  | .ok (startH, startDP) =>
    match validateHashP0 cfg.diskPartPower stopHash with
    | .error e => .error e
    | .ok (stopH, stopDP) =>
      if stopDP < startDP then .error "startHash greater than stopHash"
      else
        .ok (((List.range (stopDP + 1 - startDP)).map (fun k => startDP + k)).flatMap
          (fun i =>
            ((st.dbs.getD i []).filter
              (fun r => strLe startH r.hash && strLe r.hash stopH)).map
              (fun r => ⟨r.hash, r.shard, r.timestamp, r.metahash⟩)))

/-- Trivial concrete metadata codec used by the witnesses: decoding
returns the length, merging adds, everything succeeds. -/
def codecTrivial : KvtCodec Nat :=
  ⟨fun bs => .ok bs.length, fun n => .ok [n], fun a b => a + b, fun _ => "merged"⟩

/-- Concrete tracker configuration used by the witnesses. -/
def cfgW : FTCfg := ⟨"/srv/node", 2⟩

/-- Concrete all-zero hash used by the witnesses. -/
def hashW : String := "00000000000000000000000000000000"

/-- Codec whose re-serialization always fails, for exercising the
double-failure branch of Commit's reconciler. -/
def codecMarshalFails : KvtCodec Nat :=
  ⟨fun bs => .ok bs.length, fun _ => .error "boom", fun a b => a + b, fun _ => "merged"⟩

/-- Codec that re-serializes small stores only, so the stored store
re-serializes while the merged one does not. -/
def codecHalf : KvtCodec Nat :=
  ⟨fun bs => .ok bs.length, fun n => if n ≤ 1 then .ok [n] else .error "half",
   fun a b => a + b, fun _ => "merged"⟩

/-- State holding one record for hashW after a fresh commit under the
always-failing codec (the fresh insert never invokes the codec). -/
def stMarshalFailBase : FTState :=
  (commit cfgW codecMarshalFails (FTState.init 2) hashW 0 1 "mh1" [7]).1

/-- State holding one record with metadata [9] under codecHalf. -/
def stHalfBase : FTState := (commit cfgW codecHalf (FTState.init 2) hashW 0 1 "mh1" [9]).1

/-- State of a tracker holding exactly one record (and its blob) for one
key in partition dp, everything else empty. -/
def singleKeyState (cfg : FTCfg) (dp : Nat) (h : String) (shard : Int) (t : Int) (mh : String)
    (md : Bytes) : FTState :=
  ⟨(FTState.init cfg.diskPartPower).dbs.set dp [⟨h, shard, t, mh, md⟩],
   [blobPath cfg dp h shard t]⟩

/-- Specification-side fixed-width rendering: digit i (most significant
first) of n in the given base, for each of w positions. -/
def fixedWidthDigits (base w n : Nat) : String :=
  String.mk ((List.range w).map (fun i => digitChar (n / base ^ (w - 1 - i) % base)))

/-- Hex encoding of a string's bytes (two lowercase hex digits per
character), as Go's %x renders a string operand. -/
def specHexBytes (s : String) : String :=
  String.mk (s.data.flatMap (fun c => [digitChar (c.toNat / 16), digitChar (c.toNat % 16)]))

/-- The blob path as the claim describes it: the hash portion is the 32
lowercase hex characters of the hash itself. -/
def specClaimedBlobPath (cfg : FTCfg) (dp : Nat) (h : String) (shard ts : Nat) : String :=
  cfg.root ++ "/" ++ fixedWidthDigits 16 2 dp ++ "/" ++ h ++ "." ++
    fixedWidthDigits 16 2 shard ++ "." ++ fixedWidthDigits 10 19 ts

/-- The per-partition index file path as the claim describes it: inside
the partition's directory. -/
def specClaimedDbPath (cfg : FTCfg) (i : Nat) : String :=
  cfg.root ++ "/" ++ fixedWidthDigits 16 2 i ++ "/filetracker_" ++
    fixedWidthDigits 16 2 i ++ ".sqlite3"

/-- The blob path as the code actually lays it out: the hash portion is
the 64-character hex encoding of the hash string's bytes. -/
def specAmendedBlobPath (cfg : FTCfg) (dp : Nat) (h : String) (shard ts : Nat) : String :=
  cfg.root ++ "/" ++ (fixedWidthDigits 16 2 dp ++ "/" ++ specHexBytes h ++ "." ++
    fixedWidthDigits 16 2 shard ++ "." ++ fixedWidthDigits 10 19 ts)

/-- The index file path as the code actually lays it out: directly under
the root, not inside the partition directory. -/
def specAmendedDbPath (cfg : FTCfg) (i : Nat) : String :=
  cfg.root ++ "/" ++ ("filetracker_" ++ fixedWidthDigits 16 2 i ++ ".sqlite3")

/-- Reference configuration with the default partition power 6. -/
def cfg6 : FTCfg := ⟨"/srv/node", 6⟩

deriving instance DecidableEq for Except

/-- Hash 7f...f used by the range-listing example. -/
def hash7f : String := "7fffffffffffffffffffffffffffffff"

/-- Hash ff...f used by the range-listing example. -/
def hashff : String := "ffffffffffffffffffffffffffffffff"

/-- Range start 40...0 used by the range-listing example. -/
def hash40 : String := "40000000000000000000000000000000"

/-- Range stop bf...f used by the range-listing example. -/
def hashbf : String := "bfffffffffffffffffffffffffffffff"

/-- State holding records at hashes 00...0, 7f...f and ff...f in their
partitions under the default power 6. -/
def st8 : FTState :=
  ⟨(((FTState.init 6).dbs.set 0 [⟨hashW, 0, 1, "m0", []⟩]).set 31
      [⟨hash7f, 0, 2, "m7", []⟩]).set 63 [⟨hashff, 0, 3, "mf", []⟩],
   []⟩

/-! Shape lemmas characterising one Commit call in each scenario. -/

/-- With a valid hash, a current row, and an incoming timestamp not above
the stored one, Commit discards: state untouched, handle abandoned,
nil error. -/
theorem commit_stale {σ : Type} (cfg : FTCfg) (codec : KvtCodec σ) (st : FTState)
    (hsh h : String) (dp : Nat) (shard : Int) (timestamp : Int) (mh : String) (md : Bytes)
    (row : Row) (hv : validateHash cfg.diskPartPower hsh = .ok (h, dp))
    (hq : queryCurrent (st.dbs.getD dp []) h shard = some row)
    (hts : timestamp ≤ row.timestamp) :
    commit cfg codec st hsh shard timestamp mh md = (st, .abandoned, .ok ()) := by
  simp only [commit, hv, hq, if_pos hts]

/-- With a valid hash and no current row, Commit saves the blob and
inserts the record. -/
theorem commit_fresh {σ : Type} (cfg : FTCfg) (codec : KvtCodec σ) (st : FTState)
    (hsh h : String) (dp : Nat) (shard : Int) (timestamp : Int) (mh : String) (md : Bytes)
    (hv : validateHash cfg.diskPartPower hsh = .ok (h, dp))
    (hq : queryCurrent (st.dbs.getD dp []) h shard = none) :
    commit cfg codec st hsh shard timestamp mh md =
      (⟨st.dbs.set dp (tblInsert (st.dbs.getD dp []) ⟨h, shard, timestamp, mh, md⟩),
        blobPath cfg dp h shard timestamp :: st.disk⟩, .saved, .ok ()) := by
  simp only [commit, hv, hq]

/-- With a valid hash, a current row older than the incoming timestamp,
and an unchanged metahash, Commit updates the row in place, saves the new
blob and removes the superseded one. -/
theorem commit_win_same_metahash {σ : Type} (cfg : FTCfg) (codec : KvtCodec σ) (st : FTState)
    (hsh h : String) (dp : Nat) (shard : Int) (timestamp : Int) (md : Bytes) (row : Row)
    (hv : validateHash cfg.diskPartPower hsh = .ok (h, dp))
    (hq : queryCurrent (st.dbs.getD dp []) h shard = some row)
    (hts : row.timestamp < timestamp) :
    commit cfg codec st hsh shard timestamp row.metahash md =
      (⟨st.dbs.set dp (tblUpdate (st.dbs.getD dp []) h shard timestamp row.metahash md),
        (blobPath cfg dp h shard timestamp :: st.disk).erase (blobPath cfg dp h shard row.timestamp)⟩,
       .saved, .ok ()) := by
  simp only [commit, hv, hq, if_neg (show ¬ timestamp ≤ row.timestamp by omega), if_pos rfl,
    eq_self_iff_true, if_true]

/-- Reconciler branch: the caller's metadata fails to decode, so Commit
fails with that error and changes nothing. -/
theorem commit_bad_incoming_metadata {σ : Type} (cfg : FTCfg) (codec : KvtCodec σ) (st : FTState)
    (hsh h : String) (dp : Nat) (shard : Int) (timestamp : Int) (mh : String) (md : Bytes)
    (row : Row) (e : String)
    (hv : validateHash cfg.diskPartPower hsh = .ok (h, dp))
    (hq : queryCurrent (st.dbs.getD dp []) h shard = some row)
    (hts : row.timestamp < timestamp) (hmh : mh ≠ row.metahash)
    (hu : codec.unmarshal md = .error e) :
    commit cfg codec st hsh shard timestamp mh md = (st, .abandoned, .error e) := by
  simp only [commit, hv, hq, if_neg (show ¬ timestamp ≤ row.timestamp by omega), if_neg hmh, hu]

/-- Reconciler branch: the stored metadata fails to decode; it is
discarded and the incoming metadata is stored unmerged. -/
theorem commit_corrupt_stored_metadata {σ : Type} (cfg : FTCfg) (codec : KvtCodec σ)
    (st : FTState) (hsh h : String) (dp : Nat) (shard : Int) (timestamp : Int) (mh : String)
    (md : Bytes) (row : Row) (ms : σ) (e : String)
    (hv : validateHash cfg.diskPartPower hsh = .ok (h, dp))
    (hq : queryCurrent (st.dbs.getD dp []) h shard = some row)
    (hts : row.timestamp < timestamp) (hmh : mh ≠ row.metahash)
    (hu : codec.unmarshal md = .ok ms)
    (hdu : codec.unmarshal row.metadata = .error e) :
    commit cfg codec st hsh shard timestamp mh md =
      (⟨st.dbs.set dp (tblUpdate (st.dbs.getD dp []) h shard timestamp mh md),
        (blobPath cfg dp h shard timestamp :: st.disk).erase (blobPath cfg dp h shard row.timestamp)⟩,
       .saved, .ok ()) := by
  simp only [commit, hv, hq, if_neg (show ¬ timestamp ≤ row.timestamp by omega), if_neg hmh, hu,
    hdu]

/-- Reconciler branch: both sides decode and the merged store
re-serializes, so the merged metadata and its recomputed hash are
stored. -/
theorem commit_merged_metadata {σ : Type} (cfg : FTCfg) (codec : KvtCodec σ) (st : FTState)
    (hsh h : String) (dp : Nat) (shard : Int) (timestamp : Int) (mh : String) (md : Bytes)
    (row : Row) (ms dbms : σ) (nmd : Bytes)
    (hv : validateHash cfg.diskPartPower hsh = .ok (h, dp))
    (hq : queryCurrent (st.dbs.getD dp []) h shard = some row)
    (hts : row.timestamp < timestamp) (hmh : mh ≠ row.metahash)
    (hu : codec.unmarshal md = .ok ms)
    (hdu : codec.unmarshal row.metadata = .ok dbms)
    (hm : codec.marshal (codec.absorb ms dbms) = .ok nmd) :
    commit cfg codec st hsh shard timestamp mh md =
      (⟨st.dbs.set dp (tblUpdate (st.dbs.getD dp []) h shard timestamp
          (codec.storeHash (codec.absorb ms dbms)) nmd),
        (blobPath cfg dp h shard timestamp :: st.disk).erase (blobPath cfg dp h shard row.timestamp)⟩,
       .saved, .ok ()) := by
  simp only [commit, hv, hq, if_neg (show ¬ timestamp ≤ row.timestamp by omega), if_neg hmh, hu,
    hdu, hm]

/-- Reconciler branch: the merged store fails to re-serialize while the
stored one re-serializes fine; Commit propagates the marshal error and
changes nothing. -/
theorem commit_reencode_error_propagates {σ : Type} (cfg : FTCfg) (codec : KvtCodec σ)
    (st : FTState) (hsh h : String) (dp : Nat) (shard : Int) (timestamp : Int) (mh : String)
    (md : Bytes) (row : Row) (ms dbms : σ) (e : String) (bs : Bytes)
    (hv : validateHash cfg.diskPartPower hsh = .ok (h, dp))
    (hq : queryCurrent (st.dbs.getD dp []) h shard = some row)
    (hts : row.timestamp < timestamp) (hmh : mh ≠ row.metahash)
    (hu : codec.unmarshal md = .ok ms)
    (hdu : codec.unmarshal row.metadata = .ok dbms)
    (hm : codec.marshal (codec.absorb ms dbms) = .error e)
    (hdm : codec.marshal dbms = .ok bs) :
    commit cfg codec st hsh shard timestamp mh md = (st, .abandoned, .error e) := by
  simp only [commit, hv, hq, if_neg (show ¬ timestamp ≤ row.timestamp by omega), if_neg hmh, hu,
    hdu, hm, hdm]

/-- Reconciler branch: the merged store fails to re-serialize and so does
the stored one; Commit logs, discards the merge, and stores the incoming
metadata unmerged. -/
theorem commit_reencode_double_failure {σ : Type} (cfg : FTCfg) (codec : KvtCodec σ)
    (st : FTState) (hsh h : String) (dp : Nat) (shard : Int) (timestamp : Int) (mh : String)
    (md : Bytes) (row : Row) (ms dbms : σ) (e e2 : String)
    (hv : validateHash cfg.diskPartPower hsh = .ok (h, dp))
    (hq : queryCurrent (st.dbs.getD dp []) h shard = some row)
    (hts : row.timestamp < timestamp) (hmh : mh ≠ row.metahash)
    (hu : codec.unmarshal md = .ok ms)
    (hdu : codec.unmarshal row.metadata = .ok dbms)
    (hm : codec.marshal (codec.absorb ms dbms) = .error e)
    (hdm : codec.marshal dbms = .error e2) :
    commit cfg codec st hsh shard timestamp mh md =
      (⟨st.dbs.set dp (tblUpdate (st.dbs.getD dp []) h shard timestamp mh md),
        (blobPath cfg dp h shard timestamp :: st.disk).erase (blobPath cfg dp h shard row.timestamp)⟩,
       .saved, .ok ()) := by
  simp only [commit, hv, hq, if_neg (show ¬ timestamp ≤ row.timestamp by omega), if_neg hmh, hu,
    hdu, hm, hdm]

/-- An ill-formed hash makes validateHash fail, whatever the partition
power. -/
theorem validateHash_error_of_invalid (p : Nat) (s : String) (h : wellFormedHash s = false) :
    ∃ e, validateHash p s = .error e := by
  unfold wellFormedHash at h
  unfold validateHash
  by_cases hl : (goToLower s).length = 32
  · have hd : decodeHexBytes (goToLower s).data = none := by
      cases hdm : decodeHexBytes (goToLower s).data with
      | none => rfl
      | some v => simp [hl, hdm] at h
    exact ⟨"invalid hash " ++ goToLower s ++ "; decoding error", by simp [hl, hd]⟩
  · exact ⟨"invalid hash " ++ goToLower s ++ "; length was not 32", by simp [hl]⟩

/-- C3: with a record already stored for the key, a Commit whose
timestamp does not exceed the stored one succeeds and changes nothing:
the state (record and blob files) is untouched and the temp handle is
abandoned by the deferred teardown. -/
theorem claim_stale_commit_noop {σ : Type} (cfg : FTCfg) (codec : KvtCodec σ) (st : FTState)
    (hsh h : String) (dp : Nat) (shard : Int) (timestamp : Int) (mh : String) (md : Bytes)
    (row : Row) (hv : validateHash cfg.diskPartPower hsh = .ok (h, dp))
    (hq : queryCurrent (st.dbs.getD dp []) h shard = some row)
    (hts : timestamp ≤ row.timestamp) :
    commit cfg codec st hsh shard timestamp mh md = (st, .abandoned, .ok ()) :=
  commit_stale cfg codec st hsh h dp shard timestamp mh md row hv hq hts

/-- Witness for C3 at a concrete state holding timestamp 5: committing
timestamp 4 returns success and leaves everything unchanged. -/
theorem claim_stale_commit_noop_witness :
    commit cfgW codecTrivial
      (commit cfgW codecTrivial (FTState.init 2) hashW 0 5 "m" [7]).1 hashW 0 4 "x" [1] =
      ((commit cfgW codecTrivial (FTState.init 2) hashW 0 5 "m" [7]).1, .abandoned, .ok ()) :=
  claim_stale_commit_noop cfgW codecTrivial _ hashW hashW 0 0 4 "x" [1]
    ⟨hashW, 0, 5, "m", [7]⟩ rfl (by decide) (by decide)

/-- C9 (code bug): Lookup's second debug assertion fires on any record
stored with non-empty metadata.  Committing metadata [1, 2, 3] for the
all-zero hash and then looking the key up panics with GLH1 instead of
returning the record, contradicting Lookup's documented purpose and the
panic-free twin copy of the function in part_000. -/
theorem lookup_panics_glh1_on_nonempty_metadata :
    lookupGo cfgW (commit cfgW codecTrivial (FTState.init 2) hashW 0 1 "m" [1, 2, 3]).1 hashW 0 =
      .panic "GLH1" := by decide

/-- C10: the two copies of the tracker compute identically: Commit and
commit, List and list, validateHash in both copies, and wholeFilePath in
both copies agree on every configuration, state and input. -/
theorem two_copies_equivalent :
    (∀ (σ : Type) (cfg : FTCfg) (codec : KvtCodec σ) (st : FTState) (hsh : String)
      (shard timestamp : Int) (mh : String) (md : Bytes),
        commit cfg codec st hsh shard timestamp mh md =
          commitP0 cfg codec st hsh shard timestamp mh md) ∧
    (∀ (cfg : FTCfg) (st : FTState) (a b : String), list cfg st a b = listP0 cfg st a b) ∧
    (∀ (p : Nat) (s : String), validateHash p s = validateHashP0 p s) ∧
    (∀ (cfg : FTCfg) (h : String) (shard ts : Int),
        wholeFilePath cfg h shard ts = wholeFilePathP0 cfg h shard ts) :=
  ⟨fun _ _ _ _ _ _ _ _ _ => rfl, fun _ _ _ _ => rfl, fun _ _ => rfl, fun _ _ _ _ => rfl⟩

/-- C7: every operation that takes a hash rejects an ill-formed hash
(wrong length or a non-hex character) with an error before doing
anything: Commit returns with the state untouched and without beginning
a transaction or touching the temp handle, TempFile fails, Lookup fails,
and List fails whichever bound the bad hash is. -/
theorem invalid_hash_fails_fast {σ : Type} (cfg : FTCfg) (codec : KvtCodec σ) (st : FTState)
    (hsh : String) (shard timestamp : Int) (mh : String) (md : Bytes) (other : String)
    (hbad : wellFormedHash hsh = false) :
    (∃ e, commit cfg codec st hsh shard timestamp mh md = (st, .untouched, .error e)) ∧
    (∃ e, tempFile cfg hsh = .error e) ∧
    (∃ e, lookupGo cfg st hsh shard = .ret ((0, "", [], ""), some e)) ∧
    (∃ e, list cfg st hsh other = .error e) ∧
    (∃ e, list cfg st other hsh = .error e) := by
  obtain ⟨e, he⟩ := validateHash_error_of_invalid cfg.diskPartPower hsh hbad
  refine ⟨⟨e, by simp only [commit, he]⟩, ⟨e, by simp only [tempFile, wholeFileDir, he]⟩,
    ⟨e, by simp only [lookupGo, he]⟩, ⟨e, by simp only [list, he]⟩, ?_⟩
  cases hvo : validateHash cfg.diskPartPower other with
  | error e2 => exact ⟨e2, by simp only [list, hvo]⟩
  | ok v => exact ⟨e, by simp only [list, hvo, he]⟩

/-- Witness for C7 at the concrete ill-formed hash "xyz". -/
theorem invalid_hash_fails_fast_witness :
    (∃ e, commit cfgW codecTrivial (FTState.init 2) "xyz" 0 1 "m" [] =
      (FTState.init 2, .untouched, .error e)) ∧
    (∃ e, tempFile cfgW "xyz" = .error e) ∧
    (∃ e, lookupGo cfgW (FTState.init 2) "xyz" 0 = .ret ((0, "", [], ""), some e)) ∧
    (∃ e, list cfgW (FTState.init 2) "xyz" hashW = .error e) ∧
    (∃ e, list cfgW (FTState.init 2) hashW "xyz" = .error e) :=
  invalid_hash_fails_fast cfgW codecTrivial (FTState.init 2) "xyz" 0 1 "m" [] hashW (by decide)

/-- C1 counterexample: with a differing metahash, both sides decoding,
and BOTH the merged store and the stored store failing to re-serialize,
the claim says Commit propagates the error; the code instead logs,
discards the merge and commits the incoming metadata unmerged with
success.  Concretely: the commit returns nil and the record afterwards
holds the incoming timestamp 2, metahash mh2 and metadata [8]. -/
theorem reencode_double_failure_succeeds_cex :
    (commit cfgW codecMarshalFails stMarshalFailBase hashW 0 2 "mh2" [8]).2.2 = .ok () ∧
    queryCurrent
        ((commit cfgW codecMarshalFails stMarshalFailBase hashW 0 2 "mh2" [8]).1.dbs.getD 0 [])
        hashW 0 =
      some ⟨hashW, 0, 2, "mh2", [8]⟩ :=
  ⟨rfl, by decide⟩

/-- C1 amended: when the merged metadata store fails to re-serialize,
Commit propagates that error exactly when the ORIGINAL STORED metadata
re-serializes fine (the corruption is then presumed to be the caller's);
when the stored metadata also fails to re-serialize, Commit silently
falls back to storing the original incoming metadata unmerged and still
succeeds. -/
theorem claim_reencode_failure_handling {σ : Type} (cfg : FTCfg) (codec : KvtCodec σ)
    (st : FTState) (hsh h : String) (dp : Nat) (shard : Int) (timestamp : Int) (mh : String)
    (md : Bytes) (row : Row) (ms dbms : σ) (e : String)
    (hv : validateHash cfg.diskPartPower hsh = .ok (h, dp))
    (hq : queryCurrent (st.dbs.getD dp []) h shard = some row)
    (hts : row.timestamp < timestamp) (hmh : mh ≠ row.metahash)
    (hu : codec.unmarshal md = .ok ms)
    (hdu : codec.unmarshal row.metadata = .ok dbms)
    (hm : codec.marshal (codec.absorb ms dbms) = .error e) :
    (∀ e2, codec.marshal dbms = .error e2 →
      commit cfg codec st hsh shard timestamp mh md =
        (⟨st.dbs.set dp (tblUpdate (st.dbs.getD dp []) h shard timestamp mh md),
          (blobPath cfg dp h shard timestamp :: st.disk).erase
            (blobPath cfg dp h shard row.timestamp)⟩,
         .saved, .ok ())) ∧
    (∀ bs, codec.marshal dbms = .ok bs →
      commit cfg codec st hsh shard timestamp mh md = (st, .abandoned, .error e)) :=
  ⟨fun e2 hdm =>
    commit_reencode_double_failure cfg codec st hsh h dp shard timestamp mh md row ms dbms e e2
      hv hq hts hmh hu hdu hm hdm,
   fun bs hdm =>
    commit_reencode_error_propagates cfg codec st hsh h dp shard timestamp mh md row ms dbms e bs
      hv hq hts hmh hu hdu hm hdm⟩

/-- Witness for C1's amended theorem: the double-failure branch under
codecMarshalFails falls back to the incoming metadata, and the
stored-side-fine branch under codecHalf propagates the error. -/
theorem claim_reencode_failure_handling_witness :
    (commit cfgW codecMarshalFails stMarshalFailBase hashW 0 2 "mh2" [8] =
      (⟨stMarshalFailBase.dbs.set 0
          (tblUpdate (stMarshalFailBase.dbs.getD 0 []) hashW 0 2 "mh2" [8]),
        (blobPath cfgW 0 hashW 0 2 :: stMarshalFailBase.disk).erase (blobPath cfgW 0 hashW 0 1)⟩,
       .saved, .ok ())) ∧
    (commit cfgW codecHalf stHalfBase hashW 0 2 "mh2" [5, 6] =
      (stHalfBase, .abandoned, .error "half")) :=
  ⟨(claim_reencode_failure_handling cfgW codecMarshalFails stMarshalFailBase hashW hashW 0 0 2
      "mh2" [8] ⟨hashW, 0, 1, "mh1", [7]⟩ 1 1 "boom" rfl (by decide) (by decide) (by decide)
      rfl rfl rfl).1 "boom" rfl,
   (claim_reencode_failure_handling cfgW codecHalf stHalfBase hashW hashW 0 0 2
      "mh2" [5, 6] ⟨hashW, 0, 1, "mh1", [9]⟩ 2 1 "half" rfl (by decide) (by decide) (by decide)
      rfl rfl rfl).2 [1] rfl⟩

/-- Loop invariant for NewFileTracker's failure teardown: if every
partition before i + t initializes cleanly, the directory creation at
i + t succeeds, and the open or the schema init at i + t fails, then the
constructor reports failure and every handle left open has index at
least i + t (the teardown closed all earlier ones). -/
theorem nftGo_fail_closes (mkE oE iE : Nat → Bool) :
    ∀ (t i : Nat) (opened : List Nat) (fuel : Nat), t < fuel →
    (∀ j, i ≤ j → j < i + t → mkE j = false ∧ oE j = false ∧ iE j = false) →
    mkE (i + t) = false → (oE (i + t) || iE (i + t)) = true →
    (nftGo mkE oE iE fuel i opened).2 = false ∧
      ∀ x ∈ (nftGo mkE oE iE fuel i opened).1, i + t ≤ x := by
  intro t
  induction t with
  | zero =>
    intro i opened fuel hfuel hpre hmk hfail
    obtain ⟨fuel, rfl⟩ : ∃ f, fuel = f + 1 := ⟨fuel - 1, by omega⟩
    rw [Nat.add_zero] at hmk hfail
    simp only [nftGo, hmk, Bool.false_eq_true, if_false]
    cases hoe : oE i with
    | true =>
      simp only [if_true, Nat.add_zero]
      exact ⟨trivial, fun x hx => by
        have := List.mem_filter.mp hx
        exact of_decide_eq_true this.2⟩
    | false =>
      have hie : iE i = true := by simpa [hoe] using hfail
      simp only [hoe, Bool.false_eq_true, if_false, hie, if_true, Nat.add_zero]
      exact ⟨trivial, fun x hx => by
        have := List.mem_filter.mp hx
        exact of_decide_eq_true this.2⟩
  | succ t ih =>
    intro i opened fuel hfuel hpre hmk hfail
    obtain ⟨fuel, rfl⟩ : ∃ f, fuel = f + 1 := ⟨fuel - 1, by omega⟩
    have h0 := hpre i (Nat.le_refl i) (by omega)
    simp only [nftGo, h0.1, h0.2.1, h0.2.2, Bool.false_eq_true, if_false]
    have heq : i + 1 + t = i + (t + 1) := by omega
    have := ih (i + 1) (opened ++ [i]) fuel (by omega)
      (fun j hj1 hj2 => hpre j (by omega) (by omega))
      (by rw [heq]; exact hmk) (by rw [heq]; exact hfail)
    exact ⟨this.1, fun x hx => by have := this.2 x hx; omega⟩

/-- C6 counterexample: two partitions, with the directory creation for
partition 1 failing after partition 0 initialized fully.  The claim says
every handle opened for an earlier partition is closed before the error
returns; the code's mkdir failure path returns without any teardown, so
construction fails with partition 0's handle still open. -/
theorem newFileTracker_mkdir_leak_cex :
    newFileTracker 1 false (fun i => i == 1) (fun _ => false) (fun _ => false) = ([0], false) := by
  decide

/-- C6 amended: when the constructor fails because sql.Open or the
schema init fails at partition i (directory creations having succeeded
through i and earlier partitions having initialized cleanly), every
database handle opened for an earlier partition is closed before the
error is returned.  A directory-creation failure, by contrast, returns
without the teardown (see the counterexample). -/
theorem claim_open_init_failure_closes_earlier (p : Nat) (mkE oE iE : Nat → Bool) (i : Nat)
    (hi : i < 2 ^ p)
    (hmk : ∀ j, j ≤ i → mkE j = false)
    (hpre : ∀ j, j < i → oE j = false ∧ iE j = false)
    (hfail : oE i = true ∨ iE i = true) :
    (newFileTracker p false mkE oE iE).2 = false ∧
    ∀ j, j < i → j ∉ (newFileTracker p false mkE oE iE).1 := by
  have hrun : newFileTracker p false mkE oE iE = nftGo mkE oE iE (2 ^ p) 0 [] := by
    simp [newFileTracker]
  have hmain := nftGo_fail_closes mkE oE iE i 0 [] (2 ^ p) hi
    (fun j hj1 hj2 => ⟨hmk j (by omega), (hpre j (by omega)).1, (hpre j (by omega)).2⟩)
    (by simpa using hmk i (Nat.le_refl i))
    (by simp only [Nat.zero_add]; cases hfail with
        | inl h => simp [h]
        | inr h => simp [h])
  rw [hrun]
  exact ⟨hmain.1, fun j hj hmem => by have := hmain.2 j hmem; omega⟩

/-- Witness for C6's amended theorem: two partitions, the open of
partition 1 failing; construction fails and partition 0's handle is
closed. -/
theorem claim_open_init_failure_closes_earlier_witness :
    (newFileTracker 1 false (fun _ => false) (fun j => j == 1) (fun _ => false)).2 = false ∧
    ∀ j, j < 1 → j ∉ (newFileTracker 1 false (fun _ => false) (fun j => j == 1)
      (fun _ => false)).1 :=
  claim_open_init_failure_closes_earlier 1 (fun _ => false) (fun j => j == 1) (fun _ => false) 1
    (by decide) (fun j _ => rfl)
    (fun j hj => by
      have hj0 : j = 0 := by omega
      subst hj0
      exact ⟨rfl, rfl⟩)
    (Or.inl (by decide))

/-- Joining any root onto a non-empty relative path yields a non-empty
path. -/
theorem pathJoin_ne_empty_of_right (a b : String) (hb : b ≠ "") : pathJoin a b ≠ "" := by
  unfold pathJoin
  by_cases ha : a = ""
  · simp only [ha, if_true, eq_self_iff_true]
    exact hb
  · by_cases hbe : b = ""
    · exact absurd hbe hb
    · simp only [ha, hbe, if_false]
      intro hc
      have h2 := congrArg String.length hc
      rw [String.length_append, String.length_append] at h2
      have h3 : ("/" : String).length = 1 := rfl
      have h0 : ("" : String).length = 0 := rfl
      omega

/-- A blob path is never the empty string. -/
theorem blobPath_ne_empty (cfg : FTCfg) (dp : Nat) (h : String) (shard ts : Int) :
    blobPath cfg dp h shard ts ≠ "" := by
  unfold blobPath
  apply pathJoin_ne_empty_of_right
  intro hc
  have h2 := congrArg String.length hc
  rw [String.length_append, String.length_append, String.length_append,
    String.length_append, String.length_append] at h2
  have h3 : ("/" : String).length = 1 := rfl
  have h4 : ("." : String).length = 1 := rfl
  have h0 : ("" : String).length = 0 := rfl
  omega

/-- C5: the absence of a record is reported distinctly.  A lookup of a
valid key with no stored record returns the distinguished tuple (zero
timestamp, empty metahash, nil metadata, empty path) with a nil error;
every lookup that finds a record returns a non-empty blob path (so the
not-found tuple can never be confused with a success); and every
validation failure returns a non-nil error (so the not-found tuple can
never be confused with an error). -/
theorem lookup_notfound_distinct (cfg : FTCfg) (st : FTState) (hsh : String) (dp : Nat)
    (shard : Int)
    (hv : validateHash cfg.diskPartPower hsh = .ok (hsh, dp))
    (hq : queryCurrent (st.dbs.getD dp []) hsh shard = none) :
    lookupGo cfg st hsh shard = .ret ((0, "", [], ""), none) ∧
    (∀ (st2 : FTState) (row : Row), queryCurrent (st2.dbs.getD dp []) hsh shard = some row →
      row.metadata = [] →
      ∃ pth, lookupGo cfg st2 hsh shard = .ret ((row.timestamp, row.metahash, row.metadata, pth), none)
        ∧ pth ≠ "") ∧
    (∀ (bad : String) (st3 : FTState), wellFormedHash bad = false →
      ∃ e, lookupGo cfg st3 bad shard = .ret ((0, "", [], ""), some e)) := by
  refine ⟨by simp only [lookupGo, hv, hq], ?_, ?_⟩
  · intro st2 row hq2 hmd
    refine ⟨blobPath cfg dp hsh shard row.timestamp, ?_, blobPath_ne_empty cfg dp hsh shard _⟩
    simp only [lookupGo, hv, hq2, hmd, List.length_nil, ne_eq, not_true_eq_false,
      not_false_eq_true, if_false, if_true, wholeFilePath]
  · intro bad st3 hbad
    obtain ⟨e, he⟩ := validateHash_error_of_invalid cfg.diskPartPower bad hbad
    exact ⟨e, by simp only [lookupGo, he]⟩

/-- Witness for C5 at the all-zero hash on an empty tracker, with the
found-record and error cases instantiated alongside. -/
theorem lookup_notfound_distinct_witness :
    lookupGo cfgW (FTState.init 2) hashW 0 = .ret ((0, "", [], ""), none) ∧
    (∀ (st2 : FTState) (row : Row), queryCurrent (st2.dbs.getD 0 []) hashW 0 = some row →
      row.metadata = [] →
      ∃ pth, lookupGo cfgW st2 hashW 0 = .ret ((row.timestamp, row.metahash, row.metadata, pth), none)
        ∧ pth ≠ "") ∧
    (∀ (bad : String) (st3 : FTState), wellFormedHash bad = false →
      ∃ e, lookupGo cfgW st3 bad 0 = .ret ((0, "", [], ""), some e)) :=
  lookup_notfound_distinct cfgW (FTState.init 2) hashW 0 0 rfl (by decide)

/-- Reading back the table just written at a valid partition index. -/
theorem getD_set_self (l : List (List Row)) (i : Nat) (x : List Row) (hi : i < l.length) :
    (l.set i x).getD i [] = x := by
  rw [List.getD_eq_getElem?_getD, List.getElem?_set_self (by simpa using hi)]
  rfl

/-- The initial tables are all empty. -/
theorem getD_init (p i : Nat) : (FTState.init p).dbs.getD i [] = [] := by
  unfold FTState.init
  rw [List.getD_eq_getElem?_getD]
  rcases h : (List.replicate (2 ^ p) ([] : List Row))[i]? with _ | v
  · rfl
  · have := List.getElem?_mem h
    simp only [List.eq_of_mem_replicate this]
    rfl

/-- The current-row query on a single-row table for its own key. -/
theorem queryCurrent_single (h : String) (shard : Int) (t : Int) (mh : String) (md : Bytes) :
    queryCurrent [⟨h, shard, t, mh, md⟩] h shard = some ⟨h, shard, t, mh, md⟩ := by
  simp [queryCurrent]

/-- Updating the single row of a single-row table. -/
theorem tblUpdate_single (h : String) (shard : Int) (t ts : Int) (mh mh2 : String)
    (md md2 : Bytes) :
    tblUpdate [⟨h, shard, t, mh, md⟩] h shard ts mh2 md2 = [⟨h, shard, ts, mh2, md2⟩] := by
  simp [tblUpdate]

/-- Erasing the superseded blob from the two-element disk leaves exactly
the new blob, whether or not the two paths coincide. -/
theorem erase_pair (a b : String) : (a :: [b]).erase b = [a] := by
  by_cases h : a = b
  · subst h
    simp
  · rw [List.erase_cons_tail (by simpa using h), List.erase_cons_head]

/-- A decoded hex digit is below 16. -/
theorem hexVal_lt_16 (c : Char) (v : Nat) (h : hexVal c = some v) : v < 16 := by
  unfold hexVal at h
  split at h
  · cases h
    omega
  · split at h
    · cases h
      omega
    · split at h
      · cases h
        omega
      · cases h

/-- Every byte produced by the hex decoder is below 256. -/
theorem decodeHexBytes_lt : ∀ (cs : List Char) (bs : Bytes), decodeHexBytes cs = some bs →
    ∀ x ∈ bs, x < 256
  | [], _, h => by
    cases h
    intro x hx
    cases hx
  | [_], _, h => by cases h
  | c1 :: c2 :: rest, bs, h => by
    unfold decodeHexBytes at h
    rcases h1 : hexVal c1 with _ | v1 <;> rw [h1] at h
    · cases h
    · rcases h2 : hexVal c2 with _ | v2 <;> rw [h2] at h
      · cases h
      · rcases h3 : decodeHexBytes rest with _ | bs2 <;> rw [h3] at h
        · cases h
        · cases h
          intro x hx
          rcases List.mem_cons.mp hx with hx | hx
          · have hb1 := hexVal_lt_16 c1 v1 h1
            have hb2 := hexVal_lt_16 c2 v2 h2
            omega
          · exact decodeHexBytes_lt rest bs2 h3 x hx

/-- A disk-partition index computed by validateHash is in range when the
partition power is at most 8. -/
theorem validateHash_dp_lt (p : Nat) (s h : String) (dp : Nat) (hp : p ≤ 8)
    (hv : validateHash p s = .ok (h, dp)) : dp < 2 ^ p := by
  unfold validateHash at hv
  by_cases hl : (goToLower s).length ≠ 32
  · rw [if_pos hl] at hv
    exact absurd hv (by simp)
  · rw [if_neg hl] at hv
    rcases hd : decodeHexBytes (goToLower s).data with _ | bytes
    · rw [hd] at hv
      exact absurd hv (by simp)
    · rw [hd] at hv
      have hdp : dp = (if p ≤ 8 then (bytes.headD 0).shiftRight (8 - p) else 0) := by
        cases hv
        rfl
      rw [if_pos hp] at hdp
      subst hdp
      have hsr : (bytes.headD 0).shiftRight (8 - p) = bytes.headD 0 / 2 ^ (8 - p) :=
        Nat.shiftRight_eq_div_pow _ _
      rw [hsr]
      have hb : bytes.headD 0 < 2 ^ 8 := by
        rcases bytes with _ | ⟨b, rest⟩
        · simp
        · exact decodeHexBytes_lt _ _ hd b (List.mem_cons_self b rest)
      have hk : (0 : Nat) < 2 ^ (8 - p) := pow_pos (by norm_num) _
      refine (Nat.div_lt_iff_lt_mul hk).mpr ?_
      calc bytes.headD 0 < 2 ^ 8 := hb
        _ = 2 ^ p * 2 ^ (8 - p) := by
            rw [← pow_add]
            congr 1
            omega

/-- Any Commit that beats the stored timestamp either fails with the
state untouched (metadata decode or re-encode error) or updates the row
in place with some metahash and metadata, saving the new blob and
removing the superseded one. -/
theorem commit_win_shape {σ : Type} (cfg : FTCfg) (codec : KvtCodec σ) (st : FTState)
    (hsh h : String) (dp : Nat) (shard : Int) (timestamp : Int) (mh : String) (md : Bytes)
    (row : Row) (hv : validateHash cfg.diskPartPower hsh = .ok (h, dp))
    (hq : queryCurrent (st.dbs.getD dp []) h shard = some row)
    (hts : row.timestamp < timestamp) :
    (∃ e, commit cfg codec st hsh shard timestamp mh md = (st, .abandoned, .error e)) ∨
    (∃ mh2 md2, commit cfg codec st hsh shard timestamp mh md =
      (⟨st.dbs.set dp (tblUpdate (st.dbs.getD dp []) h shard timestamp mh2 md2),
        (blobPath cfg dp h shard timestamp :: st.disk).erase
          (blobPath cfg dp h shard row.timestamp)⟩,
       .saved, .ok ())) := by
  by_cases hmh : mh = row.metahash
  · subst hmh
    exact Or.inr ⟨row.metahash, md, commit_win_same_metahash cfg codec st hsh h dp shard
      timestamp md row hv hq hts⟩
  · cases hu : codec.unmarshal md with
    | error e =>
      exact Or.inl ⟨e, commit_bad_incoming_metadata cfg codec st hsh h dp shard timestamp mh md
        row e hv hq hts hmh hu⟩
    | ok ms =>
      cases hdu : codec.unmarshal row.metadata with
      | error e =>
        exact Or.inr ⟨mh, md, commit_corrupt_stored_metadata cfg codec st hsh h dp shard
          timestamp mh md row ms e hv hq hts hmh hu hdu⟩
      | ok dbms =>
        cases hm : codec.marshal (codec.absorb ms dbms) with
        | ok nmd =>
          exact Or.inr ⟨codec.storeHash (codec.absorb ms dbms), nmd,
            commit_merged_metadata cfg codec st hsh h dp shard timestamp mh md row ms dbms nmd
              hv hq hts hmh hu hdu hm⟩
        | error e =>
          cases hdm : codec.marshal dbms with
          | error e2 =>
            exact Or.inr ⟨mh, md, commit_reencode_double_failure cfg codec st hsh h dp shard
              timestamp mh md row ms dbms e e2 hv hq hts hmh hu hdu hm hdm⟩
          | ok bs =>
            exact Or.inl ⟨e, commit_reencode_error_propagates cfg codec st hsh h dp shard
              timestamp mh md row ms dbms e bs hv hq hts hmh hu hdu hm hdm⟩

/-- The current-row query on a single-key state returns that key's
row. -/
theorem queryCurrent_singleKeyState (cfg : FTCfg) (dp : Nat) (h : String) (shard : Int)
    (t : Int) (mh : String) (md : Bytes) (hdp : dp < 2 ^ cfg.diskPartPower) :
    queryCurrent ((singleKeyState cfg dp h shard t mh md).dbs.getD dp []) h shard =
      some ⟨h, shard, t, mh, md⟩ := by
  unfold singleKeyState
  rw [getD_set_self _ _ _ (by simp [FTState.init, hdp])]
  exact queryCurrent_single h shard t mh md

/-- The in-place update of a single-key state is again a single-key
state, with the new timestamp, metahash, metadata and blob. -/
theorem update_singleKeyState (cfg : FTCfg) (dp : Nat) (h : String) (shard : Int)
    (t ts : Int) (mh mh2 : String) (md md2 : Bytes) (hdp : dp < 2 ^ cfg.diskPartPower) :
    (⟨(singleKeyState cfg dp h shard t mh md).dbs.set dp
        (tblUpdate ((singleKeyState cfg dp h shard t mh md).dbs.getD dp []) h shard ts mh2 md2),
      (blobPath cfg dp h shard ts :: (singleKeyState cfg dp h shard t mh md).disk).erase
        (blobPath cfg dp h shard t)⟩ : FTState) =
    singleKeyState cfg dp h shard ts mh2 md2 := by
  unfold singleKeyState
  congr 1
  · rw [getD_set_self _ _ _ (by simp [FTState.init, hdp]), tblUpdate_single, List.set_set]
  · exact erase_pair _ _

/-- Unfolding one step of the commit runner. -/
theorem runCommits_cons {σ : Type} (cfg : FTCfg) (codec : KvtCodec σ) (hsh : String)
    (shard : Int) (st st1 : FTState) (r : Req) (rs : List Req) (f : HandleFate)
    (res : Except String Unit)
    (hc : commit cfg codec st hsh shard r.timestamp r.metahash r.metadata = (st1, f, res)) :
    runCommits cfg codec hsh shard st (r :: rs) =
      ((runCommits cfg codec hsh shard st1 rs).1,
       (runCommits cfg codec hsh shard st1 rs).2 &&
         (match res with | .ok _ => true | .error _ => false)) := by
  simp only [runCommits, hc]
  cases res <;> rfl

/-- Running any all-successful sequence of commits for one key from a
single-key state lands in a single-key state whose timestamp is the
maximum of the starting timestamp and all committed timestamps. -/
theorem runCommits_single_key {σ : Type} (cfg : FTCfg) (codec : KvtCodec σ) (h : String)
    (dp : Nat) (shard : Int)
    (hv : validateHash cfg.diskPartPower h = .ok (h, dp)) (hdp : dp < 2 ^ cfg.diskPartPower) :
    ∀ (rs : List Req) (t : Int) (mh : String) (md : Bytes),
      (runCommits cfg codec h shard (singleKeyState cfg dp h shard t mh md) rs).2 = true →
      ∃ mh2 md2, (runCommits cfg codec h shard (singleKeyState cfg dp h shard t mh md) rs).1 =
        singleKeyState cfg dp h shard (foldMaxTs t rs) mh2 md2 := by
  intro rs
  induction rs with
  | nil =>
    intro t mh md _
    exact ⟨mh, md, by simp [runCommits, foldMaxTs]⟩
  | cons r rs ih =>
    intro t mh md hok
    have hq := queryCurrent_singleKeyState cfg dp h shard t mh md hdp
    by_cases hts : r.timestamp ≤ t
    · have hc := commit_stale cfg codec (singleKeyState cfg dp h shard t mh md) h h dp shard
        r.timestamp r.metahash r.metadata ⟨h, shard, t, mh, md⟩ hv hq hts
      rw [runCommits_cons cfg codec h shard _ _ r rs _ _ hc] at hok ⊢
      simp only [Bool.and_true] at hok
      obtain ⟨mh2, md2, hfin⟩ := ih t mh md hok
      refine ⟨mh2, md2, ?_⟩
      simp only [hfin]
      have : foldMaxTs t (r :: rs) = foldMaxTs t rs := by
        unfold foldMaxTs
        simp only [List.foldl_cons]
        rw [max_eq_left hts]
      rw [this]
    · have hwin := commit_win_shape cfg codec (singleKeyState cfg dp h shard t mh md) h h dp
        shard r.timestamp r.metahash r.metadata ⟨h, shard, t, mh, md⟩ hv hq
        (by show t < r.timestamp; omega)
      rcases hwin with ⟨e, hc⟩ | ⟨mh1, md1, hc⟩
      · rw [runCommits_cons cfg codec h shard _ _ r rs _ _ hc] at hok
        simp at hok
      · rw [update_singleKeyState cfg dp h shard t r.timestamp mh mh1 md md1 hdp] at hc
        rw [runCommits_cons cfg codec h shard _ _ r rs _ _ hc] at hok ⊢
        simp only [Bool.and_true] at hok
        obtain ⟨mh2, md2, hfin⟩ := ih r.timestamp mh1 md1 hok
        refine ⟨mh2, md2, ?_⟩
        simp only [hfin]
        have : foldMaxTs t (r :: rs) = foldMaxTs r.timestamp rs := by
          unfold foldMaxTs
          simp only [List.foldl_cons]
          rw [max_eq_right (by omega)]
        rw [this]

/-- C2: for a single key, starting from an empty tracker, any finite
all-successful sequence of commits leaves exactly the record whose
timestamp is the highest among the commits, with exactly that record's
blob file on disk, regardless of execution order; and on an exact
timestamp tie the record already stored is kept (the incoming commit is
discarded wholesale). -/
theorem claim_last_writer_wins {σ : Type} (cfg : FTCfg) (codec : KvtCodec σ) (h : String)
    (dp : Nat) (shard : Int) (r0 : Req) (rs : List Req)
    (hv : validateHash cfg.diskPartPower h = .ok (h, dp))
    (hp : cfg.diskPartPower ≤ 8)
    (hok : (runCommits cfg codec h shard (FTState.init cfg.diskPartPower) (r0 :: rs)).2 = true) :
    (∃ row, queryCurrent
        ((runCommits cfg codec h shard (FTState.init cfg.diskPartPower) (r0 :: rs)).1.dbs.getD
          dp []) h shard = some row ∧
      row.timestamp = foldMaxTs r0.timestamp rs ∧
      (runCommits cfg codec h shard (FTState.init cfg.diskPartPower) (r0 :: rs)).1.disk =
        [blobPath cfg dp h shard (foldMaxTs r0.timestamp rs)]) ∧
    (∀ (st2 : FTState) (row2 : Row) (mh2 : String) (md2 : Bytes),
      queryCurrent (st2.dbs.getD dp []) h shard = some row2 →
      commit cfg codec st2 h shard row2.timestamp mh2 md2 = (st2, .abandoned, .ok ())) := by
  have hdp := validateHash_dp_lt cfg.diskPartPower h h dp hp hv
  have hq0 : queryCurrent ((FTState.init cfg.diskPartPower).dbs.getD dp []) h shard = none := by
    rw [getD_init]
    rfl
  have hc0 := commit_fresh cfg codec (FTState.init cfg.diskPartPower) h h dp shard r0.timestamp
    r0.metahash r0.metadata hv hq0
  have hstate :
      (⟨(FTState.init cfg.diskPartPower).dbs.set dp
          (tblInsert ((FTState.init cfg.diskPartPower).dbs.getD dp [])
            ⟨h, shard, r0.timestamp, r0.metahash, r0.metadata⟩),
        blobPath cfg dp h shard r0.timestamp :: (FTState.init cfg.diskPartPower).disk⟩ :
        FTState) =
      singleKeyState cfg dp h shard r0.timestamp r0.metahash r0.metadata := by
    unfold singleKeyState
    congr 1
    rw [getD_init]
    rfl
  rw [hstate] at hc0
  have hcons := runCommits_cons cfg codec h shard _ _ r0 rs _ _ hc0
  rw [hcons] at hok
  simp only [Bool.and_true] at hok
  obtain ⟨mh2, md2, hfin⟩ := runCommits_single_key cfg codec h dp shard hv hdp rs r0.timestamp
    r0.metahash r0.metadata hok
  refine ⟨⟨⟨h, shard, foldMaxTs r0.timestamp rs, mh2, md2⟩, ?_, rfl, ?_⟩, ?_⟩
  · rw [hcons]
    dsimp only
    rw [hfin]
    exact queryCurrent_singleKeyState cfg dp h shard _ mh2 md2 hdp
  · rw [hcons]
    dsimp only
    rw [hfin]
    rfl
  · intro st2 row2 mh2' md2' hq2
    exact commit_stale cfg codec st2 h h dp shard row2.timestamp mh2' md2' row2 hv hq2 le_rfl

/-- Witness for C2: committing timestamps 2 then 1 for the all-zero hash
(the out-of-order arrival) converges to the record with timestamp 2 and
its blob alone on disk, and the tie rule holds. -/
theorem claim_last_writer_wins_witness :
    (∃ row, queryCurrent
        ((runCommits cfgW codecTrivial hashW 0 (FTState.init cfgW.diskPartPower)
          (⟨2, "a", []⟩ :: [⟨1, "b", [5]⟩])).1.dbs.getD 0 []) hashW 0 = some row ∧
      row.timestamp = foldMaxTs (2 : Int) [⟨1, "b", [5]⟩] ∧
      (runCommits cfgW codecTrivial hashW 0 (FTState.init cfgW.diskPartPower)
          (⟨2, "a", []⟩ :: [⟨1, "b", [5]⟩])).1.disk =
        [blobPath cfgW 0 hashW 0 (foldMaxTs (2 : Int) [⟨1, "b", [5]⟩])]) ∧
    (∀ (st2 : FTState) (row2 : Row) (mh2 : String) (md2 : Bytes),
      queryCurrent (st2.dbs.getD 0 []) hashW 0 = some row2 →
      commit cfgW codecTrivial st2 hashW 0 row2.timestamp mh2 md2 =
        (st2, .abandoned, .ok ())) :=
  claim_last_writer_wins cfgW codecTrivial hashW 0 0 ⟨2, "a", []⟩ [⟨1, "b", [5]⟩] rfl
    (by decide) (by decide)

/-- Peeling the least significant digit off a padded digit string. -/
theorem padZero_append_singleton (w : Nat) (xs : List Char) (d : Char) :
    padZero (w + 1) (xs ++ [d]) = padZero w xs ++ [d] := by
  unfold padZero
  rw [List.length_append, List.length_singleton]
  have : w + 1 - (xs.length + 1) = w - xs.length := by omega
  rw [this, List.append_assoc]

/-- The padded fuel-based digit list agrees with the positional
rendering whenever n fits in w digits. -/
theorem padZero_msbDigitsAux (b : Nat) (hb : 2 ≤ b) :
    ∀ (w fuel n : Nat), n < b ^ w → n ≤ fuel →
    padZero w (msbDigitsAux b fuel n) =
      (List.range w).map (fun i => digitChar (n / b ^ (w - 1 - i) % b)) := by
  intro w
  induction w with
  | zero =>
    intro fuel n hn _
    have h0 : n = 0 := by simpa using hn
    subst h0
    cases fuel <;> simp [msbDigitsAux, padZero]
  | succ w ih =>
    intro fuel n hn hfuel
    by_cases h0 : n = 0
    · subst h0
      have hnil : msbDigitsAux b fuel 0 = [] := by cases fuel <;> simp [msbDigitsAux]
      rw [hnil]
      unfold padZero
      simp only [List.length_nil, Nat.sub_zero, List.append_nil]
      symm
      rw [List.eq_replicate_iff]
      refine ⟨by simp, ?_⟩
      intro c hc
      rcases List.mem_map.mp hc with ⟨i, _, rfl⟩
      simp
    · obtain ⟨f, rfl⟩ : ∃ f, fuel = f + 1 := ⟨fuel - 1, by omega⟩
      have hstep : msbDigitsAux b (f + 1) n = msbDigitsAux b f (n / b) ++ [digitChar (n % b)] := by
        simp [msbDigitsAux, h0]
      rw [hstep, padZero_append_singleton, List.range_succ, List.map_append]
      have hdiv : n / b < b ^ w := by
        refine (Nat.div_lt_iff_lt_mul (by omega)).mpr ?_
        calc n < b ^ (w + 1) := hn
          _ = b ^ w * b := pow_succ b w
      have hfle : n / b ≤ f := by
        have := Nat.div_lt_self (Nat.pos_of_ne_zero h0) (by omega : 1 < b)
        omega
      rw [ih f (n / b) hdiv hfle]
      congr 1
      · refine List.map_congr_left ?_
        intro i hi
        have hiw : i < w := List.mem_range.mp hi
        have hexp : b ^ (w + 1 - 1 - i) = b * b ^ (w - 1 - i) := by
          have h1 : w + 1 - 1 - i = (w - 1 - i) + 1 := by omega
          rw [h1, pow_succ]
          ring
        rw [hexp, ← Nat.div_div_eq_div_mul]
      · simp

/-- The Go zero-padded rendering equals the positional spec rendering
whenever the number fits in the width. -/
theorem goPadNat_eq_fixedWidth (b w n : Nat) (hb : 2 ≤ b) (hn : n < b ^ w) (hw : 0 < w) :
    goPadNat b w n = fixedWidthDigits b w n := by
  unfold goPadNat msbDigits fixedWidthDigits
  by_cases h0 : n = 0
  · subst h0
    rw [if_pos rfl]
    refine congrArg String.mk ?_
    have hpad : padZero w [digitChar 0] = List.replicate w (digitChar 0) := by
      unfold padZero
      rw [List.length_singleton]
      have : List.replicate (w - 1) (digitChar 0) ++ [digitChar 0] =
          List.replicate ((w - 1) + 1) (digitChar 0) := (List.replicate_succ' _ _).symm
      rw [this]
      congr 1
      omega
    rw [hpad]
    symm
    rw [List.eq_replicate_iff]
    refine ⟨by simp, ?_⟩
    intro c hc
    rcases List.mem_map.mp hc with ⟨i, _, rfl⟩
    simp
  · rw [if_neg h0]
    exact congrArg String.mk (padZero_msbDigitsAux b hb w n n hn le_rfl)

/-- C4 counterexample: at the all-zero hash, shard 0, timestamp 1, the
blob path the code computes is not the claimed one (its hash portion is
64 characters of 30s, the hex encoding of the hash string's bytes, not
the hash itself), and partition 0's index file is not at the claimed
in-partition location. -/
theorem disk_layout_cex :
    wholeFilePath cfg6 hashW 0 1 = .ok (blobPath cfg6 0 hashW 0 1) ∧
    blobPath cfg6 0 hashW 0 1 ≠ specClaimedBlobPath cfg6 0 hashW 0 1 ∧
    dbFilePath cfg6 0 ≠ specClaimedDbPath cfg6 0 :=
  ⟨rfl, by decide, by decide⟩

/-- A validated hash has exactly 32 characters. -/
theorem validateHash_ok_length (p : Nat) (s h : String) (dp : Nat)
    (hv : validateHash p s = .ok (h, dp)) : h.length = 32 := by
  unfold validateHash at hv
  by_cases hl : (goToLower s).length ≠ 32
  · rw [if_pos hl] at hv
    exact absurd hv (by simp)
  · rw [if_neg hl] at hv
    rcases hd : decodeHexBytes (goToLower s).data with _ | bytes <;> rw [hd] at hv
    · exact absurd hv (by simp)
    · cases hv
      exact not_ne_iff.mp hl

/-- Length of the byte-wise hex encoding. -/
theorem length_flatMap_pair (l : List Char) (f g : Char → Char) :
    (l.flatMap (fun c => [f c, g c])).length = 2 * l.length := by
  induction l with
  | nil => rfl
  | cons c tl ih => simp [ih]; omega

/-- On a 32-character hash the %032x padding is a no-op and the encoding
is exactly the byte-wise hex string. -/
theorem hexOfString_eq_specHexBytes (h : String) (hl : h.length = 32) :
    hexOfString 32 h = specHexBytes h := by
  unfold hexOfString specHexBytes padZero
  have hlen : (h.data.flatMap
      (fun c => [digitChar (c.toNat / 16), digitChar (c.toNat % 16)])).length = 64 := by
    rw [length_flatMap_pair]
    have : h.data.length = 32 := hl
    omega
  rw [hlen]
  rfl

/-- Joining a non-empty root with a non-empty relative path is plain
concatenation with a slash. -/
theorem pathJoin_eq_append (a b : String) (ha : a ≠ "") (hb : b ≠ "") :
    pathJoin a b = a ++ "/" ++ b := by
  unfold pathJoin
  rw [if_neg ha, if_neg hb]

/-- C4 amended: for every valid (already normalized) hash, shard below
256 and timestamp below 10^19, the blob file path is
root/partition-2-hex/hex-of-hash-bytes-64.shard-2-hex.timestamp-19-digits,
the hash portion being the 64-character hex encoding of the hash
string's bytes; and each partition's index file sits directly under the
root as filetracker_partition-2-hex.sqlite3, not inside the partition
directory. -/
theorem claim_disk_layout (cfg : FTCfg) (h : String) (dp : Nat) (shard ts i : Nat)
    (hv : validateHash cfg.diskPartPower h = .ok (h, dp)) (hroot : cfg.root ≠ "")
    (hdp8 : cfg.diskPartPower ≤ 8) (hs : shard < 256) (hts : ts < 10 ^ 19) (hi : i < 256) :
    wholeFilePath cfg h (shard : Int) (ts : Int) = .ok (specAmendedBlobPath cfg dp h shard ts) ∧
    dbFilePath cfg i = specAmendedDbPath cfg i := by
  have hdp : dp < 256 := by
    have := validateHash_dp_lt cfg.diskPartPower h h dp hdp8 hv
    have h28 : (2 : Nat) ^ cfg.diskPartPower ≤ 2 ^ 8 :=
      Nat.pow_le_pow_right (by omega) hdp8
    omega
  have hhex2dp : goPadNat 16 2 dp = fixedWidthDigits 16 2 dp :=
    goPadNat_eq_fixedWidth 16 2 dp (by omega) (by norm_num; omega) (by omega)
  have hhex2sh : goPadInt 16 2 ((shard : Nat) : Int) = fixedWidthDigits 16 2 shard := by
    unfold goPadInt
    rw [if_neg (by omega)]
    rw [Int.toNat_natCast]
    exact goPadNat_eq_fixedWidth 16 2 shard (by omega) (by norm_num; omega) (by omega)
  have hdec19 : goPadInt 10 19 ((ts : Nat) : Int) = fixedWidthDigits 10 19 ts := by
    unfold goPadInt
    rw [if_neg (by omega)]
    rw [Int.toNat_natCast]
    refine goPadNat_eq_fixedWidth 10 19 ts (by omega) ?_ (by omega)
    calc ts < 10 ^ 19 := hts
      _ = 10 ^ 19 := rfl
  have hhexs : hexOfString 32 h = specHexBytes h :=
    hexOfString_eq_specHexBytes h (validateHash_ok_length cfg.diskPartPower h h dp hv)
  constructor
  · simp only [wholeFilePath, hv]
    unfold blobPath
    rw [hhex2dp, hhex2sh, hdec19, hhexs]
    rw [pathJoin_eq_append _ _ hroot]
    · rfl
    · intro hc
      have h2 := congrArg String.length hc
      rw [String.length_append, String.length_append, String.length_append,
        String.length_append, String.length_append] at h2
      have h3 : ("/" : String).length = 1 := rfl
      have h4 : ("." : String).length = 1 := rfl
      have h0 : ("" : String).length = 0 := rfl
      omega
  · unfold dbFilePath
    rw [goPadNat_eq_fixedWidth 16 2 i (by omega) (by norm_num; omega) (by omega)]
    rw [pathJoin_eq_append _ _ hroot]
    · rfl
    · intro hc
      have h2 := congrArg String.length hc
      rw [String.length_append, String.length_append] at h2
      have h5 : ("filetracker_" : String).length = 12 := rfl
      have h6 : (".sqlite3" : String).length = 8 := rfl
      have h0 : ("" : String).length = 0 := rfl
      omega

/-- Witness for C4's amended theorem at the all-zero hash, shard 0,
timestamp 1, partition index 0 under the default power 6. -/
theorem claim_disk_layout_witness :
    wholeFilePath cfg6 hashW ((0 : Nat) : Int) ((1 : Nat) : Int) =
      .ok (specAmendedBlobPath cfg6 0 hashW 0 1) ∧
    dbFilePath cfg6 0 = specAmendedDbPath cfg6 0 :=
  claim_disk_layout cfg6 hashW 0 0 1 0 rfl (by decide) (by decide) (by decide) (by decide)
    (by decide)

/-- Decoding a valid codepoint round-trips through Char.ofNat. -/
theorem toNat_ofNat_valid (n : Nat) (h : n.isValidChar) : (Char.ofNat n).toNat = n := by
  rw [Char.ofNat, dif_pos h]
  rfl

/-- A character fixed by toLower is not an uppercase letter. -/
theorem not_upper_of_toLower_fixed (c : Char) (h : c = c.toLower) :
    ¬ (65 ≤ c.toNat ∧ c.toNat ≤ 90) := by
  intro hup
  have hval : Nat.isValidChar (c.toNat + 32) := Or.inl (by omega)
  have hlow : c.toLower = Char.ofNat (c.toNat + 32) := by
    unfold Char.toLower
    rw [if_pos (by omega)]
  have := congrArg Char.toNat (h.trans hlow)
  rw [toNat_ofNat_valid _ hval] at this
  omega

/-- Every character of a toLower-fixed character list is fixed by
toLower. -/
theorem lower_fixed_chars : ∀ (l : List Char), l = l.map Char.toLower →
    ∀ c ∈ l, c = c.toLower := by
  intro l
  induction l with
  | nil => intro _ c hc; cases hc
  | cons a tl ih =>
    intro h c hc
    rw [List.map_cons] at h
    injection h with h1 h2
    rcases List.mem_cons.mp hc with rfl | hc
    · exact h1
    · exact ih h2 c hc

/-- The branch structure of hexVal for a non-uppercase character. -/
theorem hexVal_cases (c : Char) (v : Nat) (h : hexVal c = some v)
    (hnup : ¬ (65 ≤ c.toNat ∧ c.toNat ≤ 90)) :
    (48 ≤ c.toNat ∧ c.toNat ≤ 57 ∧ v = c.toNat - 48) ∨
    (97 ≤ c.toNat ∧ c.toNat ≤ 102 ∧ v = c.toNat - 87) := by
  unfold hexVal at h
  split at h
  · next h1 => cases h; exact Or.inl ⟨h1.1, h1.2, rfl⟩
  · split at h
    · next h2 => cases h; exact Or.inr ⟨h2.1, h2.2, rfl⟩
    · split at h
      · next h3 => exact absurd ⟨h3.1, by omega⟩ hnup
      · cases h

/-- Hex digit values are monotone in the character codes, on the
lowercase alphabet the tracker stores. -/
theorem hexVal_mono (c d : Char) (vc vd : Nat) (hc : hexVal c = some vc)
    (hd2 : hexVal d = some vd)
    (hcl : ¬ (65 ≤ c.toNat ∧ c.toNat ≤ 90)) (hdl : ¬ (65 ≤ d.toNat ∧ d.toNat ≤ 90))
    (hlt : c.toNat < d.toNat) : vc < vd := by
  rcases hexVal_cases c vc hc hcl with ⟨h1, h2, rfl⟩ | ⟨h1, h2, rfl⟩ <;>
    rcases hexVal_cases d vd hd2 hdl with ⟨h3, h4, rfl⟩ | ⟨h3, h4, rfl⟩ <;> omega

/-- hexVal depends only on the character code. -/
theorem hexVal_congr (c d : Char) (h : c.toNat = d.toNat) : hexVal c = hexVal d := by
  unfold hexVal
  rw [h]

/-- The head byte of the decoder's output. -/
theorem decodeHexBytes_head (c0 c1 : Char) (rest : List Char) (bytes : Bytes)
    (hd : decodeHexBytes (c0 :: c1 :: rest) = some bytes) :
    ∃ v0 v1 bs, hexVal c0 = some v0 ∧ hexVal c1 = some v1 ∧ bytes = (16 * v0 + v1) :: bs := by
  unfold decodeHexBytes at hd
  rcases h0 : hexVal c0 with _ | v0 <;> rw [h0] at hd
  · cases hd
  · rcases h1 : hexVal c1 with _ | v1 <;> rw [h1] at hd
    · cases hd
    · rcases h2 : decodeHexBytes rest with _ | bs <;> rw [h2] at hd
      · cases hd
      · cases hd
        exact ⟨v0, v1, bs, rfl, rfl, rfl⟩

/-- Byte-wise string order bounds the head byte, on lowercase hex
strings. -/
theorem byte0_le_of_charListLe (a0 a1 b0 b1 : Char) (ra rb : List Char)
    (va0 va1 vb0 vb1 : Nat)
    (h0 : hexVal a0 = some va0) (h1 : hexVal a1 = some va1)
    (h2 : hexVal b0 = some vb0) (h3 : hexVal b1 = some vb1)
    (la0 : ¬ (65 ≤ a0.toNat ∧ a0.toNat ≤ 90)) (la1 : ¬ (65 ≤ a1.toNat ∧ a1.toNat ≤ 90))
    (lb0 : ¬ (65 ≤ b0.toNat ∧ b0.toNat ≤ 90)) (lb1 : ¬ (65 ≤ b1.toNat ∧ b1.toNat ≤ 90))
    (hle : charListLe (a0 :: a1 :: ra) (b0 :: b1 :: rb) = true) :
    16 * va0 + va1 ≤ 16 * vb0 + vb1 := by
  have hb1 := hexVal_lt_16 a1 va1 h1
  have hb3 := hexVal_lt_16 b1 vb1 h3
  unfold charListLe at hle
  by_cases hlt : a0.toNat < b0.toNat
  · have := hexVal_mono a0 b0 va0 vb0 h0 h2 la0 lb0 hlt
    omega
  · rw [if_neg hlt] at hle
    by_cases hgt : b0.toNat < a0.toNat
    · rw [if_pos hgt] at hle
      cases hle
    · rw [if_neg hgt] at hle
      have heq0 : a0.toNat = b0.toNat := by omega
      have hv0 : va0 = vb0 := by
        have := hexVal_congr a0 b0 heq0
        rw [h0, h2] at this
        cases this
        rfl
      unfold charListLe at hle
      by_cases hlt1 : a1.toNat < b1.toNat
      · have := hexVal_mono a1 b1 va1 vb1 h1 h3 la1 lb1 hlt1
        omega
      · rw [if_neg hlt1] at hle
        by_cases hgt1 : b1.toNat < a1.toNat
        · rw [if_pos hgt1] at hle
          cases hle
        · have heq1 : a1.toNat = b1.toNat := by omega
          have hv1 : va1 = vb1 := by
            have := hexVal_congr a1 b1 heq1
            rw [h1, h3] at this
            cases this
            rfl
          omega

/-- Unpacking a successful validation of an already-normalized hash. -/
theorem validateHash_ok_facts (p : Nat) (s : String) (dp : Nat)
    (hv : validateHash p s = .ok (s, dp)) :
    s.data = s.data.map Char.toLower ∧ s.length = 32 ∧
    ∃ bytes, decodeHexBytes s.data = some bytes ∧
      (p ≤ 8 → dp = (bytes.headD 0).shiftRight (8 - p)) := by
  unfold validateHash at hv
  by_cases hl : (goToLower s).length ≠ 32
  · rw [if_pos hl] at hv
    exact absurd hv (by simp)
  · rw [if_neg hl] at hv
    rcases hd : decodeHexBytes (goToLower s).data with _ | bytes <;> rw [hd] at hv
    · exact absurd hv (by simp)
    · simp only [Except.ok.injEq, Prod.mk.injEq] at hv
      obtain ⟨h1, h2⟩ := hv
      have hdata : s.data.map Char.toLower = s.data := congrArg String.data h1
      refine ⟨hdata.symm, ?_, bytes, ?_, ?_⟩
      · have := not_ne_iff.mp hl
        rw [h1] at this
        exact this
      · rw [h1] at hd
        exact hd
      · intro hp
        rw [← h2, if_pos hp]

/-- The partition index is monotone along the byte-wise string order on
validated, normalized hashes. -/
theorem partition_mono (p : Nat) (hp : p ≤ 8) (a b : String) (pa pb : Nat)
    (hva : validateHash p a = .ok (a, pa)) (hvb : validateHash p b = .ok (b, pb))
    (hab : strLe a b = true) : pa ≤ pb := by
  obtain ⟨hla, hlena, bytesa, hda, hdpa⟩ := validateHash_ok_facts p a pa hva
  obtain ⟨hlb, hlenb, bytesb, hdb, hdpb⟩ := validateHash_ok_facts p b pb hvb
  rw [hdpa hp, hdpb hp]
  have h32a : a.data.length = 32 := hlena
  have h32b : b.data.length = 32 := hlenb
  rcases hdataa : a.data with _ | ⟨a0, ta⟩
  · rw [hdataa] at h32a
    simp at h32a
  · rcases hdta : ta with _ | ⟨a1, ra⟩
    · rw [hdataa, hdta] at h32a
      simp at h32a
    · rcases hdatab : b.data with _ | ⟨b0, tb⟩
      · rw [hdatab] at h32b
        simp at h32b
      · rcases hdtb : tb with _ | ⟨b1, rb⟩
        · rw [hdatab, hdtb] at h32b
          simp at h32b
        · rw [hdataa, hdta] at hda hla
          rw [hdatab, hdtb] at hdb hlb
          obtain ⟨v0, v1, bs, h0, h1, rfl⟩ := decodeHexBytes_head a0 a1 ra bytesa hda
          obtain ⟨w0, w1, bs2, h2, h3, rfl⟩ := decodeHexBytes_head b0 b1 rb bytesb hdb
          simp only [List.headD_cons]
          have hcle : charListLe (a0 :: a1 :: ra) (b0 :: b1 :: rb) = true := by
            unfold strLe at hab
            rw [hdataa, hdta, hdatab, hdtb] at hab
            exact hab
          have la0 := not_upper_of_toLower_fixed a0
            (lower_fixed_chars _ hla a0 (List.mem_cons_self _ _))
          have la1 := not_upper_of_toLower_fixed a1
            (lower_fixed_chars _ hla a1 (by simp))
          have lb0 := not_upper_of_toLower_fixed b0
            (lower_fixed_chars _ hlb b0 (List.mem_cons_self _ _))
          have lb1 := not_upper_of_toLower_fixed b1
            (lower_fixed_chars _ hlb b1 (by simp))
          have hmono := byte0_le_of_charListLe a0 a1 b0 b1 ra rb v0 v1 w0 w1 h0 h1 h2 h3
            la0 la1 lb0 lb1 hcle
          have e1 : (16 * v0 + v1).shiftRight (8 - p) = (16 * v0 + v1) / 2 ^ (8 - p) :=
            Nat.shiftRight_eq_div_pow _ _
          have e2 : (16 * w0 + w1).shiftRight (8 - p) = (16 * w0 + w1) / 2 ^ (8 - p) :=
            Nat.shiftRight_eq_div_pow _ _
          rw [e1, e2]
          exact Nat.div_le_div_right hmono

/-- C8: a successful List call returns exactly the stored records whose
hash lies in the inclusive byte-wise range between its two normalized
bounds, where the tracker state satisfies the reachable-state invariant
that every row sits in the partition its hash maps to. -/
theorem claim_list_range (cfg : FTCfg) (st : FTState) (startH stopH : String) (sp tp : Nat)
    (hp : cfg.diskPartPower ≤ 8)
    (hvs : validateHash cfg.diskPartPower startH = .ok (startH, sp))
    (hvt : validateHash cfg.diskPartPower stopH = .ok (stopH, tp))
    (hlen : st.dbs.length = 2 ^ cfg.diskPartPower)
    (hinv : ∀ i, i < st.dbs.length → ∀ r ∈ st.dbs.getD i [],
      validateHash cfg.diskPartPower r.hash = .ok (r.hash, i))
    (hrange : strLe startH stopH = true) :
    ∃ items, list cfg st startH stopH = .ok items ∧
      ∀ item, item ∈ items ↔ ∃ i r, i < st.dbs.length ∧ r ∈ st.dbs.getD i [] ∧
        strLe startH r.hash = true ∧ strLe r.hash stopH = true ∧
        item = ⟨r.hash, r.shard, r.timestamp, r.metahash⟩ := by
  have hsp := partition_mono cfg.diskPartPower hp startH stopH sp tp hvs hvt hrange
  have htplt := validateHash_dp_lt cfg.diskPartPower stopH stopH tp hp hvt
  refine ⟨((List.range (tp + 1 - sp)).map (fun k => sp + k)).flatMap
    (fun i => ((st.dbs.getD i []).filter
      (fun r => strLe startH r.hash && strLe r.hash stopH)).map
      (fun r => ⟨r.hash, r.shard, r.timestamp, r.metahash⟩)), ?_, ?_⟩
  · simp only [list, hvs, hvt]
    rw [if_neg (by omega)]
  · intro item
    constructor
    · intro hmem
      rcases List.mem_flatMap.mp hmem with ⟨i, hi, hitem⟩
      rcases List.mem_map.mp hi with ⟨k, hk, rfl⟩
      rcases List.mem_map.mp hitem with ⟨r, hr, rfl⟩
      have hrf := List.mem_filter.mp hr
      have hk2 := List.mem_range.mp hk
      have hb := hrf.2
      rw [Bool.and_eq_true] at hb
      obtain ⟨hb1, hb2⟩ := hb
      exact ⟨sp + k, r, by omega, hrf.1, hb1, hb2, rfl⟩
    · rintro ⟨i, r, hilt, hri, hs1, hs2, rfl⟩
      have hvr := hinv i hilt r hri
      have h1 : sp ≤ i := partition_mono cfg.diskPartPower hp startH r.hash sp i hvs hvr hs1
      have h2 : i ≤ tp := partition_mono cfg.diskPartPower hp r.hash stopH i tp hvr hvt hs2
      refine List.mem_flatMap.mpr ⟨i, ?_, ?_⟩
      · exact List.mem_map.mpr ⟨i - sp, List.mem_range.mpr (by omega), by omega⟩
      · exact List.mem_map.mpr ⟨r, List.mem_filter.mpr ⟨hri, by rw [hs1, hs2]; rfl⟩, rfl⟩

/-- Witness for C8: with records at 00...0, 7f...f and ff...f, listing
from 40...0 to bf...f satisfies the exact-range characterization, and
concretely returns exactly the 7f...f record. -/
theorem claim_list_range_witness :
    (∃ items, list cfg6 st8 hash40 hashbf = .ok items ∧
      ∀ item, item ∈ items ↔ ∃ i r, i < st8.dbs.length ∧ r ∈ st8.dbs.getD i [] ∧
        strLe hash40 r.hash = true ∧ strLe r.hash hashbf = true ∧
        item = ⟨r.hash, r.shard, r.timestamp, r.metahash⟩) ∧
    list cfg6 st8 hash40 hashbf = .ok [⟨hash7f, 0, 2, "m7"⟩] :=
  ⟨claim_list_range cfg6 st8 hash40 hashbf 16 47 (by decide) rfl rfl (by decide) (by decide)
    (by decide), by decide⟩
